import Mathlib

/-!
# PartyState synchronization protocol: a shallow embedding

This file embeds the protocol core of the PartyState repository in Lean:

* the server dispatcher (`actualReducer`, `handleAction`, `patchesToPublic`,
  `sendStateToClient` from the server package);
* the client patch sequencer (the `stateWritable.update` callback of
  `handleMessage`, the `queuedPatches` map and the `refreshTimeout` debounce
  state from `partystate-svelte`);
* the client in-flight tracker (`InFlightMessageManager`).

Machine integers are modelled as `Nat` (versions and event ids only ever
grow by small increments from 0, so JavaScript number overflow is not in
play).  The structural-diff collaborator (immer) is kept external: a patch
is opaque data, applied by a caller-supplied single-patch function, and
`applyPatches` folds it left to right exactly as immer applies a patch list.
-/

set_option autoImplicit false

namespace PartyState

/-- One segment of an immer patch path: an object key or an array index. -/
inductive PathKey
  | str (s : String)
  | num (n : Nat)
deriving DecidableEq

/-- An immer patch `{op, path, value?}`.  The payload type `V` is opaque to
every function modelled here: the code only ever reads `path` and copies the
rest. -/
structure Patch (V : Type) where
  op : String
  path : List PathKey
  value : Option V
deriving DecidableEq

/-- A server state implementing the `PartiallyPublic` interface: a `public`
field (the only part ever sent to clients) and `hidden`, standing for every
other field of the state object. -/
structure PartiallyPublic (P R : Type) where
  public : P
  hidden : R
deriving DecidableEq

/-- `{ state, version }`, the versioned wrapper persisted and transmitted. -/
structure StateWrapper (S : Type) where
  state : S
  version : Nat
deriving DecidableEq

/-- The body of a broadcast `patches` message. -/
structure PatchesMsg (V : Type) where
  patches : List (Patch V)
  version : Nat
deriving DecidableEq

/-- The body of a `state` snapshot message sent to one socket.  Its payload
type is the type of the `public` sub-tree only. -/
structure StateMsg (P : Type) where
  state : P
  version : Nat
deriving DecidableEq

/-- Server `patchesToPublic`: keep the patches whose path starts at the
`public` key and drop that leading segment (`path.slice(1)`); every other
patch is dropped.  An empty path has no head and is dropped too
(`patch.path[0]` is `undefined` in the source). -/
def patchesToPublic {V : Type} : List (Patch V) → List (Patch V)
  | [] => []
  | p :: ps =>
    if p.path.head? = some (.str "public") then
      { p with path := p.path.tail } :: patchesToPublic ps
    else
      patchesToPublic ps

/-- Server `actualReducer`: run the patch-producing reducer on the wrapped
state; `none` when the reducer left the state unchanged (immer returns the
old object, `newState === oldState`), otherwise the new state with the
version bumped by one, plus the patches. -/
def actualReducer {S E V : Type} [DecidableEq S]
    (reducer : S → E → S × List (Patch V))
    (stateWrapper : StateWrapper S) (event : E) :
    Option (StateWrapper S × List (Patch V)) :=
  let res := reducer stateWrapper.state event
  if res.1 = stateWrapper.state then none
  else some ({ state := res.1, version := stateWrapper.version + 1 }, res.2)

/-- What one `handleAction` call leaves behind: the wrapper now in the room
storage, the message broadcast to all connections (if any), and whether a
`storage.put` happened. -/
structure DispatchResult (S V : Type) where
  stored : StateWrapper S
  broadcast : Option (PatchesMsg V)
  persisted : Bool
deriving DecidableEq

/-- Server `handleAction` on the wrapper loaded from storage: run
`actualReducer`; on `none` nothing further happens, otherwise the public
projection of the patches is broadcast at the new version and the new
wrapper is persisted (broadcast before persist). -/
def handleAction {S E V : Type} [DecidableEq S]
    (reducer : S → E → S × List (Patch V))
    (w : StateWrapper S) (event : E) : DispatchResult S V :=
  match actualReducer reducer w event with
  | none => { stored := w, broadcast := none, persisted := false }
  | some (next, patches) =>
    { stored := next
      broadcast := some { patches := patchesToPublic patches, version := next.version }
      persisted := true }

/-- Server `sendStateToClient`: the snapshot message sent to one socket holds
only the `public` field of the stored state, with the stored version. -/
def sendStateToClient {P R : Type} (w : StateWrapper (PartiallyPublic P R)) :
    StateMsg P :=
  { state := w.state.public, version := w.version }

/-- Iterate `handleAction` over a list of events, threading the stored
wrapper exactly as the room storage threads it between dispatches. -/
def dispatchAll {S E V : Type} [DecidableEq S]
    (reducer : S → E → S × List (Patch V)) :
    StateWrapper S → List E → StateWrapper S
  | w, [] => w
  | w, e :: es => dispatchAll reducer (handleAction reducer w e).stored es

/-- Every event in the list makes the reducer change the state it is applied
to (a non-empty diff at every step of the dispatch sequence). -/
def allChangingB {S E V : Type} [DecidableEq S]
    (reducer : S → E → S × List (Patch V)) :
    StateWrapper S → List E → Bool
  | _, [] => true
  | w, e :: es =>
    decide ((reducer w.state e).1 ≠ w.state) &&
      allChangingB reducer (handleAction reducer w e).stored es

lemma handleAction_stored_of_change {S E V : Type} [DecidableEq S]
    (reducer : S → E → S × List (Patch V)) (w : StateWrapper S) (e : E)
    (h : (reducer w.state e).1 ≠ w.state) :
    (handleAction reducer w e).stored =
      { state := (reducer w.state e).1, version := w.version + 1 } := by
  unfold handleAction actualReducer
  simp [h]

lemma handleAction_stored_of_noop {S E V : Type} [DecidableEq S]
    (reducer : S → E → S × List (Patch V)) (w : StateWrapper S) (e : E)
    (h : (reducer w.state e).1 = w.state) :
    (handleAction reducer w e).stored = w := by
  unfold handleAction actualReducer
  simp [h]

lemma dispatchAll_version_of_allChanging {S E V : Type} [DecidableEq S]
    (reducer : S → E → S × List (Patch V)) :
    ∀ (events : List E) (w : StateWrapper S),
      allChangingB reducer w events = true →
      (dispatchAll reducer w events).version = w.version + events.length := by
  intro events
  induction events with
  | nil => intro w _; simp [dispatchAll]
  | cons e es ih =>
    intro w h
    rw [allChangingB] at h
    simp only [Bool.and_eq_true, decide_eq_true_eq] at h
    rw [dispatchAll, ih _ h.2, handleAction_stored_of_change reducer w e h.1]
    simp [List.length_cons]
    omega

/-- C4: the authoritative version moves by exactly one exactly when the state
changes, and a dispatch never decreases it; starting from version 0, after a
sequence of dispatched events that each produce a change, the stored version
equals the number of events. -/
theorem authoritative_version_counts {S E V : Type} [DecidableEq S]
    (reducer : S → E → S × List (Patch V)) (s0 : S) (events : List E)
    (h : allChangingB reducer { state := s0, version := 0 } events = true) :
    (dispatchAll reducer { state := s0, version := 0 } events).version
        = events.length ∧
    ∀ (w : StateWrapper S) (e : E),
      w.version ≤ (handleAction reducer w e).stored.version ∧
      ((handleAction reducer w e).stored.state ≠ w.state ↔
        (handleAction reducer w e).stored.version = w.version + 1) := by
  constructor
  · have := dispatchAll_version_of_allChanging reducer events { state := s0, version := 0 } h
    simpa using this
  · intro w e
    by_cases hc : (reducer w.state e).1 = w.state
    · rw [handleAction_stored_of_noop reducer w e hc]
      constructor
      · exact Nat.le_refl _
      · constructor
        · intro hne; exact absurd rfl hne
        · intro hv; omega
    · rw [handleAction_stored_of_change reducer w e hc]
      constructor
      · exact Nat.le_succ _
      · simp [hc]

/-- A reducer used only to instantiate theorems at a concrete input. -/
def incReducer : Nat → Unit → Nat × List (Patch Unit) :=
  fun s _ => (s + 1, [])

theorem authoritative_version_counts_witness :
    allChangingB incReducer { state := 0, version := 0 } [(), (), ()] = true ∧
    (dispatchAll incReducer { state := 0, version := 0 } [(), (), ()]).version = 3 := by
  refine ⟨by decide, ?_⟩
  exact (authoritative_version_counts incReducer 0 [(), (), ()] (by decide)).1

/-- C5: an action on which the reducer produces no observable change causes
no version bump, no broadcast and no persist: the stored wrapper is exactly
the one that was loaded. -/
theorem noop_action_has_no_effect {S E V : Type} [DecidableEq S]
    (reducer : S → E → S × List (Patch V)) (w : StateWrapper S) (e : E)
    (h : (reducer w.state e).1 = w.state) :
    handleAction reducer w e =
      { stored := w, broadcast := none, persisted := false } := by
  unfold handleAction actualReducer
  simp [h]

/-- A reducer that never changes the state, for the concrete instantiation. -/
def idReducer : Nat → Unit → Nat × List (Patch Unit) :=
  fun s _ => (s, [])

theorem noop_action_has_no_effect_witness :
    handleAction idReducer { state := 5, version := 2 } () =
      { stored := { state := 5, version := 2 }, broadcast := none,
        persisted := false } :=
  noop_action_has_no_effect idReducer { state := 5, version := 2 } () rfl

lemma patchesToPublic_eq_filterMap {V : Type} (ps : List (Patch V)) :
    patchesToPublic ps =
      (ps.filter
        (fun p => decide (p.path.head? = some (PathKey.str "public")))).map
        (fun p => { p with path := p.path.tail }) := by
  induction ps with
  | nil => rfl
  | cons p ps ih =>
    rw [patchesToPublic]
    by_cases hp : p.path.head? = some (PathKey.str "public")
    · simp [hp, List.filter_cons, ih]
    · simp [hp, List.filter_cons, ih]

/-- C8: under the public/private split, the broadcast produced by a dispatch
carries exactly the reducer patches whose path is rooted at `public`, each
re-rooted by dropping that leading segment (so each broadcast patch is the
re-rooting of a reducer patch rooted at `public`), and a snapshot message
carries only the `public` sub-tree of the stored state. -/
theorem client_messages_public_only {P R E V : Type}
    [DecidableEq P] [DecidableEq R] :
    (∀ (ps : List (Patch V)),
      patchesToPublic ps =
        (ps.filter
          (fun p => decide (p.path.head? = some (PathKey.str "public")))).map
          (fun p => { p with path := p.path.tail })) ∧
    (∀ (reducer : PartiallyPublic P R → E → PartiallyPublic P R × List (Patch V))
        (w : StateWrapper (PartiallyPublic P R)) (e : E) (msg : PatchesMsg V),
      (handleAction reducer w e).broadcast = some msg →
        msg.patches = patchesToPublic (reducer w.state e).2 ∧
        ∀ q ∈ msg.patches,
          ({ op := q.op, path := PathKey.str "public" :: q.path,
             value := q.value } : Patch V) ∈ (reducer w.state e).2) ∧
    (∀ (w : StateWrapper (PartiallyPublic P R)),
      sendStateToClient w = { state := w.state.public, version := w.version }) := by
  refine ⟨patchesToPublic_eq_filterMap, ?_, fun w => rfl⟩
  intro reducer w e msg hmsg
  have hpat : msg.patches = patchesToPublic (reducer w.state e).2 := by
    unfold handleAction actualReducer at hmsg
    by_cases hc : (reducer w.state e).1 = w.state
    · simp [hc] at hmsg
    · simp [hc] at hmsg
      rw [← hmsg]
  refine ⟨hpat, ?_⟩
  intro q hq
  rw [hpat, patchesToPublic_eq_filterMap] at hq
  obtain ⟨p, hpmem, hpq⟩ := List.mem_map.1 hq
  have hpfilter := List.of_mem_filter hpmem
  have hpmem' := List.mem_of_mem_filter hpmem
  simp only [decide_eq_true_eq] at hpfilter
  obtain ⟨t, ht⟩ : ∃ t, p.path = PathKey.str "public" :: t := by
    cases hpath : p.path with
    | nil => rw [hpath] at hpfilter; simp at hpfilter
    | cons a t =>
      rw [hpath] at hpfilter
      simp at hpfilter
      exact ⟨t, by rw [hpfilter]⟩
  have : q = { op := p.op, path := t, value := p.value } := by
    rw [← hpq, ht]
    rfl
  rw [this]
  have : ({ op := p.op, path := PathKey.str "public" :: t,
            value := p.value } : Patch V) = p := by
    cases p
    simp_all
  rw [show ({ op := p.op, path := t, value := p.value } : Patch V).op = p.op from rfl]
  simpa [this] using hpmem'

/-- A reducer whose diff touches both a public and a non-public path, for the
concrete instantiation. -/
def splitReducer :
    PartiallyPublic Nat Nat → Unit → PartiallyPublic Nat Nat × List (Patch Unit) :=
  fun s _ =>
    ({ public := s.public + 1, hidden := s.hidden + 1 },
     [{ op := "replace", path := [PathKey.str "public", PathKey.str "count"],
        value := none },
      { op := "replace", path := [PathKey.str "secret"], value := none }])

theorem client_messages_public_only_witness :
    (handleAction splitReducer
        { state := { public := 0, hidden := 0 }, version := 0 } ()).broadcast =
      some { patches := [{ op := "replace", path := [PathKey.str "count"],
                           value := none }], version := 1 } ∧
    ({ patches := [{ op := "replace", path := [PathKey.str "count"],
                     value := none }], version := 1 } : PatchesMsg Unit).patches =
      patchesToPublic
        (splitReducer { public := (0 : Nat), hidden := (0 : Nat) } ()).2 := by
  refine ⟨by decide, ?_⟩
  exact ((client_messages_public_only (P := Nat) (R := Nat) (E := Unit)
      (V := Unit)).2.1 splitReducer
    { state := { public := 0, hidden := 0 }, version := 0 } () _ (by decide)).1

/-! ## Client patch sequencer

The `stateWritable.update` callback of `handleMessage`, together with the
`queuedPatches` JavaScript `Map` (modelled as an association list keyed by
version: `get`/`delete`/`set` below follow `Map` semantics, with `set`
replacing an existing entry in place and appending a fresh one) and the
`refreshTimeout` debounce state (`some ()` stands for a non-null timer id).
The in-flight manager calls made by `handleMessage` are modelled separately
by `InFlightMessageManager` further down. -/

/-- One message as decoded by the client handler. -/
inductive ClientMsg (S V : Type)
  | state (value : S) (version : Nat)
  | patches (patches : List (Patch V)) (version : Nat)
  | resolve (eventId : Nat) (atVersion : Nat)

/-- The client sequencer state: the `stateWritable` value (`none` before the
first snapshot), the `queuedPatches` map, and the `refreshTimeout` slot. -/
structure ClientState (S V : Type) where
  current : Option (S × Nat)
  queued : List (Nat × List (Patch V))
  refreshTimeout : Option Unit
deriving DecidableEq

/-- `Map.get`: the entry with the given key, if present. -/
def lookupBuf {V : Type} (buf : List (Nat × List (Patch V))) (v : Nat) :
    Option (List (Patch V)) :=
  match buf.find? (fun e => e.1 == v) with
  | some e => some e.2
  | none => none

/-- `Map.delete`: remove the entry with the given key. -/
def eraseBuf {V : Type} (buf : List (Nat × List (Patch V))) (v : Nat) :
    List (Nat × List (Patch V)) :=
  buf.filter (fun e => e.1 != v)

/-- `Map.set`: replace an existing entry in place, else append at the end. -/
def setBuf {V : Type} (buf : List (Nat × List (Patch V))) (v : Nat)
    (ps : List (Patch V)) : List (Nat × List (Patch V)) :=
  if buf.any (fun e => e.1 == v) then
    buf.map (fun e => if e.1 == v then (v, ps) else e)
  else
    buf ++ [(v, ps)]

/-- immer `applyPatches`: apply a patch list left to right through the
external single-patch collaborator `ap`. -/
def applyPatches {S V : Type} (ap : S → Patch V → S) (s : S)
    (ps : List (Patch V)) : S :=
  ps.foldl ap s

/-- The buffer-clearing loop of the snapshot branch, entry by entry: for
each queued entry whose key is `≤ version` the source executes
`queuedPatches.delete(version)` — the loop variable `patchVersion` is unused
in the delete, so only the entry keyed at the snapshot version itself is
ever removed.  (Iterating the original entry list instead of the live `Map`
iterator is equivalent here: the only deleted key is `version`, and
revisiting it just repeats a no-op delete.) -/
def snapshotClearQueued {V : Type} (buf : List (Nat × List (Patch V)))
    (version : Nat) : List (Nat × List (Patch V)) :=
  buf.foldl (fun acc e => if e.1 ≤ version then eraseBuf acc version else acc) buf

/-- The `while (queuedPatches.has(version + 1))` drain loop, accumulating
drained patches onto `acc` as the source pushes them onto `patches`.  The
loop runs at most `buf.length` times because every iteration deletes an
entry it found, so a fuel of `buf.length` at the call site reproduces the
loop exactly (`drainLoop_fuel_irrel` below). -/
def drainLoop {V : Type} :
    Nat → List (Nat × List (Patch V)) → Nat → List (Patch V) →
    List (Nat × List (Patch V)) × Nat × List (Patch V)
  | 0, buf, version, acc => (buf, version, acc)
  | n + 1, buf, version, acc =>
    match lookupBuf buf (version + 1) with
    | some ps => drainLoop n (eraseBuf buf (version + 1)) (version + 1) (acc ++ ps)
    | none => (buf, version, acc)

lemma eraseBuf_length_lt {V : Type} (v : Nat) :
    ∀ buf : List (Nat × List (Patch V)),
      (lookupBuf buf v).isSome → (eraseBuf buf v).length < buf.length := by
  intro buf
  induction buf with
  | nil => intro h; simp [lookupBuf] at h
  | cons e rest ih =>
    intro h
    by_cases he : e.1 = v
    · rw [eraseBuf, List.filter_cons]
      simp only [he, bne_self_eq_false, Bool.false_eq_true, if_false]
      exact Nat.lt_succ_of_le (List.length_filter_le _ _)
    · have hrest : (lookupBuf rest v).isSome := by
        rw [lookupBuf, List.find?_cons_of_neg] at h
        · exact h
        · simp [he]
      have := ih hrest
      rw [eraseBuf, List.filter_cons]
      have hne : (e.1 != v) = true := by simp [he]
      rw [hne]
      simpa [eraseBuf] using Nat.succ_lt_succ this

lemma drainLoop_fuel_irrel {V : Type} :
    ∀ (n m : Nat) (buf : List (Nat × List (Patch V))) (version : Nat)
      (acc : List (Patch V)),
      buf.length ≤ n → buf.length ≤ m →
      drainLoop n buf version acc = drainLoop m buf version acc := by
  intro n
  induction n with
  | zero =>
    intro m buf version acc hn hm
    have hb : buf = [] := List.eq_nil_of_length_eq_zero (Nat.le_zero.1 hn)
    subst hb
    cases m with
    | zero => rfl
    | succ m => rw [drainLoop, drainLoop]; rfl
  | succ n ih =>
    intro m buf version acc hn hm
    cases m with
    | zero =>
      have hb : buf = [] := List.eq_nil_of_length_eq_zero (Nat.le_zero.1 hm)
      subst hb
      rw [drainLoop, drainLoop]; rfl
    | succ m =>
      rw [drainLoop, drainLoop]
      cases hl : lookupBuf buf (version + 1) with
      | none => rfl
      | some ps =>
        have hlt := eraseBuf_length_lt (version + 1) buf (by rw [hl]; rfl)
        exact ih m (eraseBuf buf (version + 1)) (version + 1) (acc ++ ps)
          (by omega) (by omega)

/-- The `stateWritable.update` callback of client `handleMessage`.  A
`resolve` message returns `current` unchanged.  A `state` message adopts the
snapshot as the new base, runs the (miskeyed) buffer-clearing loop, then the
drain loop.  A `patches` message whose version is exactly one past the
current version is applied together with the drained queue; any other
`patches` message is written into the queue and `current` returned
unchanged — the timer-arming branch there is guarded by
`refreshTimeout != null` in the source, so it can only re-arm an already
armed timer, never arm one.  Both applying branches end with the
clear-timer check `!queuedPatches.size && refreshTimeout != null`. -/
def seqStep {S V : Type} (ap : S → Patch V → S) (cs : ClientState S V) :
    ClientMsg S V → ClientState S V
  | .resolve _ _ => cs
  | .state value version =>
    let queued1 := snapshotClearQueued cs.queued version
    let r := drainLoop queued1.length queued1 version []
    { current := some (applyPatches ap value r.2.2, r.2.1)
      queued := r.1
      refreshTimeout :=
        if r.1.isEmpty && cs.refreshTimeout.isSome then none
        else cs.refreshTimeout }
  | .patches ps version =>
    match cs.current with
    | some sv =>
      if sv.2 + 1 = version then
        let r := drainLoop cs.queued.length cs.queued version ps
        { current := some (applyPatches ap sv.1 r.2.2, r.2.1)
          queued := r.1
          refreshTimeout :=
            if r.1.isEmpty && cs.refreshTimeout.isSome then none
            else cs.refreshTimeout }
      else
        { current := cs.current, queued := setBuf cs.queued version ps
          refreshTimeout := cs.refreshTimeout }
    | none =>
      { current := cs.current, queued := setBuf cs.queued version ps
        refreshTimeout := cs.refreshTimeout }

/-- The debounce timer firing: only an armed timer can fire; the callback
disarms the slot and sends the `$$refresh_state` sentinel (`true` in the
second component). -/
def timerFire {S V : Type} (cs : ClientState S V) : ClientState S V × Bool :=
  match cs.refreshTimeout with
  | some _ => ({ cs with refreshTimeout := none }, true)
  | none => (cs, false)

/-- An event the client session can experience: an incoming message, or the
debounce timer firing. -/
inductive ClientEvent (S V : Type)
  | msg (m : ClientMsg S V)
  | fire

/-- One client event; the Boolean is whether `$$refresh_state` was sent. -/
def clientStep {S V : Type} (ap : S → Patch V → S) (cs : ClientState S V) :
    ClientEvent S V → ClientState S V × Bool
  | .msg m => (seqStep ap cs m, false)
  | .fire => timerFire cs

/-- Run a sequence of client events, counting the `$$refresh_state` sends. -/
def clientRun {S V : Type} (ap : S → Patch V → S) (cs : ClientState S V) :
    List (ClientEvent S V) → ClientState S V × Nat
  | [] => (cs, 0)
  | e :: es =>
    let r := clientStep ap cs e
    let r' := clientRun ap r.1 es
    (r'.1, (if r.2 then 1 else 0) + r'.2)

/-- The client session's initial sequencer state: `stateWritable` is null,
`queuedPatches` is empty, no refresh timeout is armed. -/
def initClient {S V : Type} : ClientState S V :=
  { current := none, queued := [], refreshTimeout := none }

lemma seqStep_refreshTimeout_none {S V : Type} (ap : S → Patch V → S)
    (cs : ClientState S V) (m : ClientMsg S V)
    (h : cs.refreshTimeout = none) : (seqStep ap cs m).refreshTimeout = none := by
  cases m with
  | resolve e a => exact h
  | state value version => simp [seqStep, h]
  | patches ps version =>
    rw [seqStep]
    cases cs.current with
    | none => exact h
    | some sv =>
      by_cases hv : sv.2 + 1 = version
      · simp [hv, h]
      · simp [hv, h]

/-- C2 (code divergence): the timer-arming guard in the gap branch is
`refreshTimeout != null`, the inverse of "arm if not already armed" — and
nothing else ever arms the timer.  So from the initial client state, no
sequence of messages and timer events ever sends the `$$refresh_state`
resync sentinel, and the timer slot stays permanently unarmed. -/
theorem resync_sentinel_never_sent {S V : Type} (ap : S → Patch V → S)
    (events : List (ClientEvent S V)) :
    (clientRun ap initClient events).2 = 0 ∧
    (clientRun ap initClient events).1.refreshTimeout = none := by
  suffices h : ∀ (events : List (ClientEvent S V)) (cs : ClientState S V),
      cs.refreshTimeout = none →
      (clientRun ap cs events).2 = 0 ∧
      (clientRun ap cs events).1.refreshTimeout = none from
    h events initClient rfl
  intro events
  induction events with
  | nil => intro cs h; exact ⟨rfl, h⟩
  | cons e es ih =>
    intro cs h
    cases e with
    | msg m =>
      have h1 := seqStep_refreshTimeout_none ap cs m h
      have h2 := ih (seqStep ap cs m) h1
      simpa [clientRun, clientStep] using h2
    | fire =>
      have h2 := ih cs h
      simp only [clientRun, clientStep, timerFire, h]
      simpa using h2

/-- A concrete patch used by the concrete scenarios below. -/
def patchEx : Patch Unit :=
  { op := "replace", path := [PathKey.str "count"], value := none }

/-- A concrete single-patch applier on `Nat` states that counts how many
patches have been applied, so application order and multiplicity are
observable. -/
def countApply : Nat → Patch Unit → Nat :=
  fun s _ => s + 1

/-- C1 (code divergence): a snapshot at version 5 reaching a client that has
buffered a batch at version 1 leaves that stale batch in the queue: the
clearing loop executes `delete(version)` with the snapshot's version instead
of the iterated key, so entries strictly below the snapshot version survive,
where the spec drops every batch at or below it. -/
theorem snapshot_leaves_stale_buffer :
    (seqStep countApply
        { current := some (0, 2), queued := [(1, [patchEx])],
          refreshTimeout := none }
        (.state 7 5)).queued = [(1, [patchEx])] ∧
    (seqStep countApply
        { current := some (0, 2), queued := [(1, [patchEx])],
          refreshTimeout := none }
        (.state 7 5)).queued ≠ [] := by
  constructor <;> decide

/-- C3 (counterexample): a `patches` message at version 3 reaching a client
whose current version is 5 is written into the pending buffer — it is not
discarded, contradicting the claim that such a message is neither applied
nor retained. -/
theorem stale_patch_retained :
    (seqStep countApply
        { current := some (10, 5), queued := [], refreshTimeout := none }
        (.patches [patchEx] 3)).queued = [(3, [patchEx])] ∧
    (seqStep countApply
        { current := some (10, 5), queued := [], refreshTimeout := none }
        (.patches [patchEx] 3)).queued ≠ [] ∧
    (seqStep countApply
        { current := some (10, 5), queued := [], refreshTimeout := none }
        (.patches [patchEx] 3)).current = some (10, 5) := by
  refine ⟨by decide, by decide, by decide⟩

/-- C3 (amended): a `patches` message whose version is at most the current
version is not applied — the visible state and version are unchanged — but
it is stored in the pending patch buffer under its version rather than
discarded. -/
theorem stale_patch_buffered_not_applied {S V : Type} (ap : S → Patch V → S)
    (cs : ClientState S V) (ps : List (Patch V)) (version : Nat)
    (s : S) (v : Nat) (hcur : cs.current = some (s, v)) (hle : version ≤ v) :
    (seqStep ap cs (.patches ps version)).current = cs.current ∧
    (seqStep ap cs (.patches ps version)).queued = setBuf cs.queued version ps := by
  have hv : ¬ (v + 1 = version) := by omega
  simp only [seqStep]
  rw [hcur]
  simp [hv]

theorem stale_patch_buffered_not_applied_witness :
    (({ current := some (10, 5), queued := [], refreshTimeout := none } :
        ClientState Nat Unit).current = some (10, 5) ∧ 3 ≤ 5) ∧
    (seqStep countApply
        { current := some (10, 5), queued := [], refreshTimeout := none }
        (.patches [patchEx] 3)).queued =
      setBuf [] 3 [patchEx] :=
  ⟨⟨rfl, by decide⟩,
    (stale_patch_buffered_not_applied countApply
      { current := some (10, 5), queued := [], refreshTimeout := none }
      [patchEx] 3 10 5 rfl (by decide)).2⟩

/-- C7: a `patches` message whose version is not exactly one past the
current version (including the case with no snapshot yet) leaves the visible
state and version untouched and is stored into the pending buffer. -/
theorem gap_patch_buffered_without_apply {S V : Type} (ap : S → Patch V → S)
    (cs : ClientState S V) (ps : List (Patch V)) (version : Nat)
    (h : ∀ sv : S × Nat, cs.current = some sv → sv.2 + 1 ≠ version) :
    (seqStep ap cs (.patches ps version)).current = cs.current ∧
    (seqStep ap cs (.patches ps version)).queued = setBuf cs.queued version ps ∧
    (seqStep ap cs (.patches ps version)).refreshTimeout = cs.refreshTimeout := by
  simp only [seqStep]
  cases hcur : cs.current with
  | none => exact ⟨rfl, rfl, rfl⟩
  | some sv =>
    have hv : ¬ (sv.2 + 1 = version) := h sv hcur
    simp [hv]

theorem gap_patch_buffered_without_apply_witness :
    (seqStep countApply
        { current := some (10, 1), queued := [], refreshTimeout := none }
        (.patches [patchEx] 3)).current = some (10, 1) ∧
    (seqStep countApply
        { current := some (10, 1), queued := [], refreshTimeout := none }
        (.patches [patchEx] 3)).queued = setBuf [] 3 [patchEx] ∧
    (seqStep countApply
        { current := some (10, 1), queued := [], refreshTimeout := none }
        (.patches [patchEx] 3)).refreshTimeout = none :=
  gap_patch_buffered_without_apply countApply
    { current := some (10, 1), queued := [], refreshTimeout := none }
    [patchEx] 3 (by intro sv hsv; cases hsv; decide)

/-- Written from the spec's words, for comparison with `drainLoop`: "while
`pendingBuffer` has an entry for `currentVersion + 1`, apply it and advance,
removing the entry" — one buffered batch is applied to the state per
iteration, in strictly increasing version order, and the applied entry is
removed, so each buffered batch is applied at most once. -/
def drainSpecLoop {S V : Type} (ap : S → Patch V → S) :
    Nat → List (Nat × List (Patch V)) → S → Nat →
    List (Nat × List (Patch V)) × Nat × S
  | 0, buf, s, version => (buf, version, s)
  | n + 1, buf, s, version =>
    match lookupBuf buf (version + 1) with
    | some ps => drainSpecLoop ap n (eraseBuf buf (version + 1))
        (applyPatches ap s ps) (version + 1)
    | none => (buf, version, s)

lemma applyPatches_append {S V : Type} (ap : S → Patch V → S) (s : S)
    (l1 l2 : List (Patch V)) :
    applyPatches ap s (l1 ++ l2) = applyPatches ap (applyPatches ap s l1) l2 := by
  simp [applyPatches, List.foldl_append]

lemma drainLoop_agrees_spec {S V : Type} (ap : S → Patch V → S) :
    ∀ (n : Nat) (buf : List (Nat × List (Patch V))) (version : Nat)
      (acc : List (Patch V)) (s : S),
      (drainLoop n buf version acc).1 =
        (drainSpecLoop ap n buf (applyPatches ap s acc) version).1 ∧
      (drainLoop n buf version acc).2.1 =
        (drainSpecLoop ap n buf (applyPatches ap s acc) version).2.1 ∧
      applyPatches ap s (drainLoop n buf version acc).2.2 =
        (drainSpecLoop ap n buf (applyPatches ap s acc) version).2.2 := by
  intro n
  induction n with
  | zero => intro buf version acc s; exact ⟨rfl, rfl, rfl⟩
  | succ n ih =>
    intro buf version acc s
    rw [drainLoop, drainSpecLoop]
    cases hl : lookupBuf buf (version + 1) with
    | none => exact ⟨rfl, rfl, rfl⟩
    | some ps =>
      have h := ih (eraseBuf buf (version + 1)) (version + 1) (acc ++ ps) s
      rwa [applyPatches_append] at h

/-- C6: a `patches` message one past the current version is applied
immediately, and then the queue is drained exactly as the spec's loop
describes: while the buffer holds the entry for the next version, that entry
is applied, the version advances, and the entry is removed — so buffered
batches are applied exactly once, in strictly increasing version order. -/
theorem contiguous_patch_applies_then_drains {S V : Type}
    (ap : S → Patch V → S) (cs : ClientState S V) (ps : List (Patch V))
    (version : Nat) (s : S) (v : Nat)
    (hcur : cs.current = some (s, v)) (hver : version = v + 1) :
    (seqStep ap cs (.patches ps version)).current =
      some ((drainSpecLoop ap cs.queued.length cs.queued
               (applyPatches ap s ps) version).2.2,
            (drainSpecLoop ap cs.queued.length cs.queued
               (applyPatches ap s ps) version).2.1) ∧
    (seqStep ap cs (.patches ps version)).queued =
      (drainSpecLoop ap cs.queued.length cs.queued
        (applyPatches ap s ps) version).1 := by
  subst hver
  have hD := drainLoop_agrees_spec ap cs.queued.length cs.queued (v + 1) ps s
  simp only [seqStep]
  rw [hcur]
  simp [hD.1, hD.2.1, hD.2.2]

theorem contiguous_patch_applies_then_drains_witness :
    (seqStep countApply
        { current := some (0, 1), queued := [(3, [patchEx])],
          refreshTimeout := none }
        (.patches [patchEx] 2)).current = some (2, 3) ∧
    (seqStep countApply
        { current := some (0, 1), queued := [(3, [patchEx])],
          refreshTimeout := none }
        (.patches [patchEx] 2)).queued = [] := by
  have h := contiguous_patch_applies_then_drains countApply
    { current := some (0, 1), queued := [(3, [patchEx])], refreshTimeout := none }
    [patchEx] 2 0 1 rfl rfl
  exact ⟨h.1.trans (by decide), h.2.trans (by decide)⟩

/-! ## Client in-flight tracker

`InFlightMessageManager` from the client package.  An entry's `id` stands
for the identity of its `resolve` callback (the promise created by
`getOnCompletePromise`); the source distinguishes entries by that closure's
identity, and `send` gives every entry a fresh one.  Resolving an entry is
modelled by emitting its id: each operation returns the new manager plus the
ids it resolved, in call order. -/

/-- The wait condition of an in-flight entry. -/
inductive WaitingFor
  | eventId (eventId : Nat)
  | version (version : Nat)
deriving DecidableEq

/-- One tracked in-flight entry (the optimistic-update closure carried by
the source entry is not read by any operation modelled here). -/
structure InFlightEntry where
  id : Nat
  waitingFor : WaitingFor
deriving DecidableEq

/-- The manager: the `#version` mirror of the sequencer's version (null
until the first `onVersionUpdate`) and the `#inFlight` array. -/
structure InFlightMessageManager where
  version : Option Nat
  inFlight : List InFlightEntry
deriving DecidableEq

/-- The manager a fresh client session starts with. -/
def initialManager : InFlightMessageManager :=
  { version := none, inFlight := [] }

/-- The shared shape of the `for`-loops of `onResolveMessage` and
`onVersionUpdate`: walk the entries in order; `f e = some e'` keeps `e'`
(same id) in the new list, `f e = none` resolves the entry, emitting its id. -/
def processEntries (f : InFlightEntry → Option InFlightEntry) :
    List InFlightEntry → List InFlightEntry × List Nat
  | [] => ([], [])
  | e :: es =>
    let r := processEntries f es
    match f e with
    | some e' => (e' :: r.1, r.2)
    | none => (r.1, e.id :: r.2)

/-- The loop body of `onResolveMessage`: an entry waiting on an event id at
most the acknowledged one is resolved right away when the mirrored version
is non-null and already at least `atVersion`, and otherwise is kept with its
wait condition reclassified to `atVersion`; any other entry is kept as is. -/
def resolveStep (version : Option Nat) (msgEventId msgAtVersion : Nat)
    (e : InFlightEntry) : Option InFlightEntry :=
  match e.waitingFor with
  | .eventId eid =>
    if eid ≤ msgEventId then
      match version with
      | some v =>
        if msgAtVersion ≤ v then none
        else some { e with waitingFor := .version msgAtVersion }
      | none => some { e with waitingFor := .version msgAtVersion }
    else some e
  | .version _ => some e

/-- `onResolveMessage({eventId, atVersion})`. -/
def onResolveMessage (msgEventId msgAtVersion : Nat)
    (m : InFlightMessageManager) : InFlightMessageManager × List Nat :=
  let r := processEntries (resolveStep m.version msgEventId msgAtVersion) m.inFlight
  ({ m with inFlight := r.1 }, r.2)

/-- The loop body of `onVersionUpdate`: an entry waiting on a version at
most the new one is resolved; any other entry is kept as is. -/
def versionStep (newVersion : Nat) (e : InFlightEntry) : Option InFlightEntry :=
  match e.waitingFor with
  | .version v => if v ≤ newVersion then none else some e
  | .eventId _ => some e

/-- `onVersionUpdate(newVersion)`: record the new version, then resolve and
remove every entry waiting on a version at most the new one. -/
def onVersionUpdate (newVersion : Nat) (m : InFlightMessageManager) :
    InFlightMessageManager × List Nat :=
  let r := processEntries (versionStep newVersion) m.inFlight
  ({ version := some newVersion, inFlight := r.1 }, r.2)

/-- `resolveAllInFlightMessages()`: resolve every entry and clear the list. -/
def resolveAllInFlightMessages (m : InFlightMessageManager) :
    InFlightMessageManager × List Nat :=
  ({ m with inFlight := [] }, m.inFlight.map (fun e => e.id))

/-- `getOnCompletePromise(eventId, ...)`: push a fresh entry (with the id of
its new completion promise) waiting on that event id. -/
def getOnCompletePromise (eventId : Nat) (entryId : Nat)
    (m : InFlightMessageManager) : InFlightMessageManager :=
  { m with inFlight := m.inFlight ++ [{ id := entryId,
                                        waitingFor := .eventId eventId }] }

/-- Whether an entry is still waiting on an event id at most the
acknowledged one. -/
def waitsOnAcked (msgEventId : Nat) (e : InFlightEntry) : Bool :=
  match e.waitingFor with
  | .eventId eid => decide (eid ≤ msgEventId)
  | .version _ => false

/-- Whether the mirrored sequencer version is non-null and at least
`atVersion`. -/
def canResolveNow (version : Option Nat) (atVersion : Nat) : Bool :=
  match version with
  | some v => decide (atVersion ≤ v)
  | none => false

lemma processEntries_resolveStep_now (msgEventId msgAtVersion : Nat) (v : Nat)
    (hv : msgAtVersion ≤ v) :
    ∀ l : List InFlightEntry,
      processEntries (resolveStep (some v) msgEventId msgAtVersion) l =
        (l.filter (fun e => !(waitsOnAcked msgEventId e)),
         (l.filter (waitsOnAcked msgEventId)).map (fun e => e.id)) := by
  intro l
  induction l with
  | nil => rfl
  | cons e es ih =>
    rw [processEntries, ih]
    cases hw : e.waitingFor with
    | eventId eid =>
      by_cases he : eid ≤ msgEventId
      · simp [resolveStep, hw, he, hv, waitsOnAcked, List.filter_cons]
      · simp [resolveStep, hw, he, waitsOnAcked, List.filter_cons]
    | version w =>
      simp [resolveStep, hw, waitsOnAcked, List.filter_cons]

lemma processEntries_resolveStep_later (msgEventId msgAtVersion : Nat)
    (version : Option Nat) (hv : canResolveNow version msgAtVersion = false) :
    ∀ l : List InFlightEntry,
      processEntries (resolveStep version msgEventId msgAtVersion) l =
        (l.map (fun e =>
          if waitsOnAcked msgEventId e then
            { e with waitingFor := .version msgAtVersion }
          else e), []) := by
  intro l
  induction l with
  | nil => rfl
  | cons e es ih =>
    rw [processEntries, ih]
    cases hw : e.waitingFor with
    | eventId eid =>
      by_cases he : eid ≤ msgEventId
      · cases version with
        | none => simp [resolveStep, hw, he, waitsOnAcked]
        | some v =>
          have hlt : ¬ (msgAtVersion ≤ v) := by
            simpa [canResolveNow] using hv
          simp [resolveStep, hw, he, hlt, waitsOnAcked]
      · simp [resolveStep, hw, he, waitsOnAcked]
    | version w =>
      simp [resolveStep, hw, waitsOnAcked]

/-- C9: `onResolveMessage` treats every entry still waiting on an event id
at most the acknowledged one uniformly — when the mirrored sequencer version
is already at least `atVersion` all of them are resolved and removed,
otherwise each is kept with its wait condition reclassified to the version
`atVersion` and nothing is resolved — and entries waiting on any other
condition are left untouched in both cases. -/
theorem resolve_message_reclassifies_or_resolves
    (m : InFlightMessageManager) (msgEventId msgAtVersion : Nat) :
    onResolveMessage msgEventId msgAtVersion m =
      if canResolveNow m.version msgAtVersion then
        ({ version := m.version,
           inFlight := m.inFlight.filter
             (fun e => !(waitsOnAcked msgEventId e)) },
         (m.inFlight.filter (waitsOnAcked msgEventId)).map (fun e => e.id))
      else
        ({ version := m.version,
           inFlight := m.inFlight.map (fun e =>
             if waitsOnAcked msgEventId e then
               { e with waitingFor := .version msgAtVersion }
             else e) },
         []) := by
  by_cases hc : canResolveNow m.version msgAtVersion = true
  · rw [if_pos hc]
    cases hv : m.version with
    | none => rw [hv] at hc; simp [canResolveNow] at hc
    | some v =>
      rw [hv] at hc
      have hle : msgAtVersion ≤ v := by simpa [canResolveNow] using hc
      rw [onResolveMessage, hv,
        processEntries_resolveStep_now msgEventId msgAtVersion v hle]
  · rw [if_neg hc]
    have hc' : canResolveNow m.version msgAtVersion = false :=
      Bool.not_eq_true _ ▸ Bool.of_not_eq_true hc
    rw [onResolveMessage,
      processEntries_resolveStep_later msgEventId msgAtVersion m.version hc']

lemma resolveStep_id (version : Option Nat) (msgEventId msgAtVersion : Nat)
    (e e' : InFlightEntry)
    (h : resolveStep version msgEventId msgAtVersion e = some e') :
    e'.id = e.id := by
  unfold resolveStep at h
  repeat' split at h
  all_goals first
    | exact Option.noConfusion h
    | (injection h with h2; rw [← h2])

lemma versionStep_id (newVersion : Nat) (e e' : InFlightEntry)
    (h : versionStep newVersion e = some e') : e'.id = e.id := by
  unfold versionStep at h
  repeat' split at h
  all_goals first
    | exact Option.noConfusion h
    | (injection h with h2; rw [← h2])

lemma processEntries_perm (f : InFlightEntry → Option InFlightEntry)
    (hf : ∀ e e', f e = some e' → e'.id = e.id) :
    ∀ l : List InFlightEntry,
      ((processEntries f l).1.map (fun e => e.id) ++
        (processEntries f l).2).Perm (l.map (fun e => e.id)) := by
  intro l
  induction l with
  | nil => simp [processEntries]
  | cons e es ih =>
    rw [processEntries]
    cases hfe : f e with
    | some e' =>
      simp only [List.map_cons, List.cons_append]
      rw [hf e e' hfe]
      exact ih.cons e.id
    | none =>
      simp only [List.map_cons]
      exact List.perm_middle.trans (ih.cons e.id)

/-- One call a client session can make on its in-flight manager. -/
inductive TrackerOp
  | push (entryId eventId : Nat)
  | resolveMsg (eventId atVersion : Nat)
  | versionUpdate (newVersion : Nat)
  | resolveAll
deriving DecidableEq

/-- Dispatch one call to the corresponding manager operation; a push
resolves nothing. -/
def applyOp (m : InFlightMessageManager) :
    TrackerOp → InFlightMessageManager × List Nat
  | .push i e => (getOnCompletePromise e i m, [])
  | .resolveMsg e a => onResolveMessage e a m
  | .versionUpdate v => onVersionUpdate v m
  | .resolveAll => resolveAllInFlightMessages m

/-- Run a call sequence, collecting every resolved entry id in call order. -/
def runOps (m : InFlightMessageManager) :
    List TrackerOp → InFlightMessageManager × List Nat
  | [] => (m, [])
  | op :: ops =>
    let r := applyOp m op
    let r' := runOps r.1 ops
    (r'.1, r.2 ++ r'.2)

/-- The entry ids created by the pushes of a call sequence. -/
def pushIds : List TrackerOp → List Nat
  | [] => []
  | .push i _ :: ops => i :: pushIds ops
  | .resolveMsg _ _ :: ops => pushIds ops
  | .versionUpdate _ :: ops => pushIds ops
  | .resolveAll :: ops => pushIds ops

/-- The ids of the entries a manager is tracking. -/
def trackedIds (m : InFlightMessageManager) : List Nat :=
  m.inFlight.map (fun e => e.id)

lemma applyOp_perm (m : InFlightMessageManager) (op : TrackerOp) :
    (trackedIds (applyOp m op).1 ++ (applyOp m op).2).Perm
      (trackedIds m ++ pushIds [op]) := by
  cases op with
  | push i e =>
    simp [applyOp, getOnCompletePromise, trackedIds, pushIds]
  | resolveMsg e a =>
    have hp := processEntries_perm (resolveStep m.version e a)
      (resolveStep_id m.version e a) m.inFlight
    simp only [applyOp, onResolveMessage, trackedIds, pushIds, List.append_nil]
    exact hp
  | versionUpdate v =>
    have hp := processEntries_perm (versionStep v) (versionStep_id v) m.inFlight
    simp only [applyOp, onVersionUpdate, trackedIds, pushIds, List.append_nil]
    exact hp
  | resolveAll =>
    simp [applyOp, resolveAllInFlightMessages, trackedIds, pushIds]

lemma pushIds_cons (op : TrackerOp) (ops : List TrackerOp) :
    pushIds (op :: ops) = pushIds [op] ++ pushIds ops := by
  cases op <;> simp [pushIds]

lemma runOps_nodup_invariant :
    ∀ (ops : List TrackerOp) (m : InFlightMessageManager),
      (trackedIds m).Nodup → (pushIds ops).Nodup →
      (∀ i ∈ pushIds ops, i ∉ trackedIds m) →
      (trackedIds (runOps m ops).1 ++ (runOps m ops).2).Nodup ∧
      ∀ x ∈ trackedIds (runOps m ops).1 ++ (runOps m ops).2,
        x ∈ trackedIds m ∨ x ∈ pushIds ops := by
  intro ops
  induction ops with
  | nil =>
    intro m h1 _ _
    refine ⟨by simpa [runOps] using h1, ?_⟩
    intro x hx
    rw [runOps] at hx
    simp only [List.append_nil] at hx
    exact Or.inl hx
  | cons op rest ih =>
    intro m h1 h2 h3
    have hperm := applyOp_perm m op
    have h2' : (pushIds [op] ++ pushIds rest).Nodup := by
      rwa [← pushIds_cons]
    have hNop : (pushIds [op]).Nodup := h2'.of_append_left
    have hNrest : (pushIds rest).Nodup := h2'.of_append_right
    have hDisjOp : (pushIds [op]).Disjoint (pushIds rest) :=
      List.disjoint_of_nodup_append h2'
    have hRn : (trackedIds m ++ pushIds [op]).Nodup := by
      refine List.Nodup.append h1 hNop ?_
      intro a ham hap
      exact h3 a (by rw [pushIds_cons]; exact List.mem_append_left _ hap) ham
    have hLn : (trackedIds (applyOp m op).1 ++ (applyOp m op).2).Nodup :=
      hperm.symm.nodup hRn
    have hN1 : (trackedIds (applyOp m op).1).Nodup := hLn.of_append_left
    have hNr1 : ((applyOp m op).2).Nodup := hLn.of_append_right
    have hD1 : (trackedIds (applyOp m op).1).Disjoint ((applyOp m op).2) :=
      List.disjoint_of_nodup_append hLn
    have hmemL : ∀ x, x ∈ trackedIds (applyOp m op).1 ++ (applyOp m op).2 →
        x ∈ trackedIds m ∨ x ∈ pushIds [op] := by
      intro x hx
      exact List.mem_append.1 (hperm.subset hx)
    have hfresh : ∀ i ∈ pushIds rest, i ∉ trackedIds (applyOp m op).1 := by
      intro i hi hmem
      rcases hmemL i (List.mem_append_left _ hmem) with hc | hc
      · exact h3 i (by rw [pushIds_cons]; exact List.mem_append_right _ hi) hc
      · exact hDisjOp hc hi
    obtain ⟨hB1, hB2⟩ := ih (applyOp m op).1 hN1 hNrest hfresh
    have hrun : runOps m (op :: rest) =
        ((runOps (applyOp m op).1 rest).1,
         (applyOp m op).2 ++ (runOps (applyOp m op).1 rest).2) := rfl
    rw [hrun]
    have hDisjB : ((applyOp m op).2).Disjoint
        (trackedIds (runOps (applyOp m op).1 rest).1 ++
          (runOps (applyOp m op).1 rest).2) := by
      intro a ha hmem
      rcases hB2 a hmem with hc | hc
      · exact hD1 hc ha
      · rcases hmemL a (List.mem_append_right _ ha) with hd | hd
        · exact h3 a (by rw [pushIds_cons]; exact List.mem_append_right _ hc) hd
        · exact hDisjOp hd hc
    constructor
    · have hP : (trackedIds (runOps (applyOp m op).1 rest).1 ++
          ((applyOp m op).2 ++ (runOps (applyOp m op).1 rest).2)).Perm
          ((applyOp m op).2 ++
            (trackedIds (runOps (applyOp m op).1 rest).1 ++
              (runOps (applyOp m op).1 rest).2)) := by
        rw [← List.append_assoc, ← List.append_assoc]
        exact List.perm_append_comm.append_right _
      exact hP.symm.nodup (List.Nodup.append hNr1 hB1 hDisjB)
    · intro x hx
      rcases List.mem_append.1 hx with hc | hc
      · rcases hB2 x (List.mem_append_left _ hc) with hd | hd
        · rcases hmemL x (List.mem_append_left _ hd) with he | he
          · exact Or.inl he
          · exact Or.inr (by rw [pushIds_cons]; exact List.mem_append_left _ he)
        · exact Or.inr (by rw [pushIds_cons]; exact List.mem_append_right _ hd)
      · rcases List.mem_append.1 hc with hd | hd
        · rcases hmemL x (List.mem_append_right _ hd) with he | he
          · exact Or.inl he
          · exact Or.inr (by rw [pushIds_cons]; exact List.mem_append_left _ he)
        · rcases hB2 x (List.mem_append_right _ hd) with he | he
          · rcases hmemL x (List.mem_append_left _ he) with hg | hg
            · exact Or.inl hg
            · exact Or.inr (by rw [pushIds_cons]; exact List.mem_append_left _ hg)
          · exact Or.inr (by rw [pushIds_cons]; exact List.mem_append_right _ he)

lemma applyOp_removes_resolved (m : InFlightMessageManager) (op : TrackerOp)
    (hm : (trackedIds m).Nodup) (hp : pushIds [op] = []) :
    ∀ i ∈ (applyOp m op).2, i ∉ trackedIds (applyOp m op).1 := by
  intro i hi hmem
  have hperm := applyOp_perm m op
  have hRn : (trackedIds m ++ pushIds [op]).Nodup := by
    rw [hp]; simpa using hm
  have hLn := hperm.symm.nodup hRn
  exact List.disjoint_of_nodup_append hLn hmem hi

/-- C10: run from a fresh session any call sequence whose pushes carry
pairwise-distinct promise ids — every operation removes the entries it
resolves, so no id is ever emitted twice: each completion promise is
resolved at most once.  The second conjunct is the per-operation removal
fact itself. -/
theorem resolve_invoked_at_most_once (ops : List TrackerOp)
    (h : (pushIds ops).Nodup) :
    ((runOps initialManager ops).2).Nodup ∧
    ∀ (m : InFlightMessageManager) (op : TrackerOp),
      (trackedIds m).Nodup →
      ∀ i ∈ (applyOp m op).2, i ∉ trackedIds (applyOp m op).1 := by
  constructor
  · have hinv := runOps_nodup_invariant ops initialManager
      (by simp [initialManager, trackedIds]) h
      (by intro i _ hmem; simp [initialManager, trackedIds] at hmem)
    exact hinv.1.of_append_right
  · intro m op hm
    cases op with
    | push i e => intro j hj; simp [applyOp] at hj
    | resolveMsg e a => exact applyOp_removes_resolved m _ hm rfl
    | versionUpdate v => exact applyOp_removes_resolved m _ hm rfl
    | resolveAll => exact applyOp_removes_resolved m _ hm rfl

theorem resolve_invoked_at_most_once_witness :
    (pushIds [TrackerOp.push 1 10, .push 2 11, .resolveMsg 11 4,
              .versionUpdate 4, .push 3 12, .resolveAll]).Nodup ∧
    ((runOps initialManager
        [TrackerOp.push 1 10, .push 2 11, .resolveMsg 11 4,
         .versionUpdate 4, .push 3 12, .resolveAll]).2).Nodup := by
  refine ⟨by decide, ?_⟩
  exact (resolve_invoked_at_most_once
    [TrackerOp.push 1 10, .push 2 11, .resolveMsg 11 4,
     .versionUpdate 4, .push 3 12, .resolveAll] (by decide)).1

end PartyState
